import Mathlib

/-!
Verification of the Minimum Sum Coloring core (greedy constructor,
tabu-search engine, random graph generation) against its specification.

The Lean definitions below are a shallow embedding of the Python sources:
  - `src/graph_generation.py` : `Graph`, `generate_erdos_renyi_graph`,
    `generate_random_graphs`
  - `src/greedy_msc.py`       : `greedy_msc`
  - `src/tabu_search_msc.py`  : `TabuSearchConfig`, `tabu_search_msc`

Modelling conventions:
  - Python ints that are always used as counts/colors are embedded as `Nat`;
    the vertex-count field of `Graph` is embedded as `Int` because the
    generator accepts (and the validation claims are about) negative counts.
  - A Python dict keyed by consecutive vertices `0..n-1` is embedded as a
    total function `Nat → Nat` when the code keeps it total over `range n`
    (the tabu engine's colorings), and as an association list
    `List (Nat × Nat)` when the code builds it incrementally and tests key
    membership (the greedy constructor's coloring).
  - `random.Random(seed).random()` draws are modelled as an arbitrary
    rational-valued stream determined by the seed (`seedStream`), and the
    draws of an unseeded generator as an ambient entropy stream passed in
    explicitly; determinism claims quantify over both.
  - Unbounded `while` loops are embedded with explicit fuel that provably
    dominates the loop's iteration count (`max_iterations` for the tabu
    loop, `card + 1` for the smallest-free-color scan).
-/

namespace MSC

/-- Embedding of `graph_generation.Graph`: an adjacency-list graph.  `n` is
the Python int vertex count (it may be negative: the generator does not
validate it); `adj v` models `self.adj.get(v, set())`, the set of
neighbors of `v`, defaulting to the empty set. -/
structure Graph where
  n : Int
  adj : Nat → Finset Nat

/-- `Graph.neighbors`, i.e. `self.adj.get(v, set())`. -/
def Graph.neighbors (g : Graph) (v : Nat) : Finset Nat := g.adj v

/-- Number of (non-negative) vertices: Python `range(graph.n)` enumerates
exactly the naturals below `n`, which is empty for non-positive `n`. -/
def Graph.vcount (g : Graph) : Nat := g.n.toNat

/-- Well-formedness of a graph as stated in the spec's data model:
symmetric adjacency, no self loops, and all edges between vertices in
`range n`. -/
def Graph.WF (g : Graph) : Prop :=
  (∀ u v, v ∈ g.adj u → u ∈ g.adj v) ∧
  (∀ v, v ∉ g.adj v) ∧
  (∀ u v, v ∈ g.adj u → u < g.vcount ∧ v < g.vcount)

/-- A coloring (total map `vertex → color`) is feasible when no two
adjacent vertices share a color. -/
def Feasible (g : Graph) (c : Nat → Nat) : Prop :=
  ∀ u v, v ∈ g.neighbors u → c u ≠ c v

/-! ### Association lists (Python dict built key by key) -/

/-- Lookup in an association list, i.e. `coloring[u]` / `u in coloring`
for the greedy constructor's dict (keys are assigned at most once, so
first-match lookup agrees with the dict). -/
def alookup : List (Nat × Nat) → Nat → Option Nat
  | [], _ => none
  | (k, c) :: rest, u => if u = k then some c else alookup rest u

/-- Keys of an association list, in insertion order. -/
def keysOf (col : List (Nat × Nat)) : List Nat := col.map Prod.fst

/-! ### Greedy constructor (`greedy_msc.py`) -/

/-- Comparison key of the Python sort
`vertices.sort(key=lambda v: (-len(graph.neighbors(v)), v))`:
`v` precedes `w` when `v` has strictly larger degree, or equal degree and
smaller-or-equal id (non-increasing degree, ties by ascending vertex id). -/
def degKey (g : Graph) (v w : Nat) : Prop :=
  (g.neighbors w).card < (g.neighbors v).card ∨
    ((g.neighbors v).card = (g.neighbors w).card ∧ v ≤ w)

instance degKeyDecidable (g : Graph) : DecidableRel (degKey g) := fun _ _ => by
  unfold degKey; exact inferInstance

instance degKeyTotal (g : Graph) : IsTotal Nat (degKey g) where
  total v w := by unfold degKey; omega

instance degKeyTrans (g : Graph) : IsTrans Nat (degKey g) where
  trans u v w h₁ h₂ := by unfold degKey at *; omega

instance degKeyAntisymm (g : Graph) : IsAntisymm Nat (degKey g) where
  antisymm v w h₁ h₂ := by unfold degKey at *; omega

/-- The sorted vertex list `vertices` of `greedy_msc`: `list(range(n))`
sorted by non-increasing degree, ties broken by ascending id.  Python's
sort returns the unique list sorted under `degKey` (the key is injective),
which `insertionSort` also produces. -/
def sortedVertices (g : Graph) : List Nat :=
  (List.range g.vcount).insertionSort (degKey g)

/-- Colors already used by already-colored neighbors of `v`:
`{coloring[u] for u in graph.neighbors(v) if u in coloring}`. -/
def forbiddenColors (g : Graph) (col : List (Nat × Nat)) (v : Nat) : Finset Nat :=
  ((g.neighbors v).filter (fun u => (alookup col u).isSome)).image
    (fun u => (alookup col u).getD 0)

/-- The scan `color = 1; while color in forbidden_colors: color += 1`,
with explicit fuel (the loop needs at most `card + 1` steps). -/
def freeFrom (forbidden : Finset Nat) : Nat → Nat → Nat
  | 0, color => color
  | fuel + 1, color =>
      if color ∈ forbidden then freeFrom forbidden fuel (color + 1) else color

/-- The smallest positive color outside `forbidden`. -/
def smallestFree (forbidden : Finset Nat) : Nat :=
  freeFrom forbidden (forbidden.card + 1) 1

/-- The vertex-processing loop of `greedy_msc`: assign to each vertex, in
order, the smallest positive color not used by its already-colored
neighbors. -/
def greedyGo (g : Graph) : List Nat → List (Nat × Nat) → List (Nat × Nat)
  | [], col => col
  | v :: rest, col =>
      greedyGo g rest (col ++ [(v, smallestFree (forbiddenColors g col v))])

/-- Embedding of `greedy_msc`: returns the coloring (as the association
list the dict is built from) and the sum of its colors. -/
def greedy_msc (g : Graph) : List (Nat × Nat) × Nat :=
  let col := greedyGo g (sortedVertices g) []
  (col, (col.map Prod.snd).sum)

/-- The greedy coloring read back as a total function (`coloring[v]`,
defaulting to 0 off the assigned keys). -/
def greedyColoring (g : Graph) (v : Nat) : Nat :=
  (alookup (greedy_msc g).1 v).getD 0

/-! ### Tabu search engine (`tabu_search_msc.py`) -/

/-- Embedding of `TabuSearchConfig` with its defaults. -/
structure TabuSearchConfig where
  max_iterations : Nat := 500
  tabu_tenure : Nat := 7
  max_no_improve : Nat := 100

/-- The objective `_objective(coloring) = sum(coloring.values())` of a
coloring total over `range n`. -/
def objVal (g : Graph) (c : Nat → Nat) : Nat :=
  ∑ v ∈ Finset.range g.vcount, c v

/-- The mutable state of one `tabu_search_msc` run.  Field order:
current coloring, current objective, best coloring, best objective,
tabu record, highest color in use, iterations without improvement,
iteration counter. -/
structure TabuState where
  current : Nat → Nat
  current_value : Nat
  best : Nat → Nat
  best_value : Nat
  tabu : Nat × Nat → Option Nat
  max_color : Nat
  no_improve : Nat
  iteration : Nat

/-- Candidate moves in Python enumeration order: `v in range(n)` outer,
`new_color in range(1, max_color + 2)` inner. -/
def movePairs (n max_color : Nat) : List (Nat × Nat) :=
  (List.range n).flatMap (fun v =>
    (List.range (max_color + 1)).map (fun i => (v, i + 1)))

/-- One candidate inspection of the move-exploration loop: skip the
current color, skip conflicting recolorings, skip tabu moves that do not
beat the global best (aspiration), and otherwise keep the candidate when
it is the first one or strictly better than the stored one. -/
def consider (g : Graph) (current : Nat → Nat)
    (current_value iteration best_value : Nat) (tabu : Nat × Nat → Option Nat)
    (acc : Option ((Nat × Nat) × Nat)) (m : Nat × Nat) :
    Option ((Nat × Nat) × Nat) :=
  if m.2 = current m.1 then acc
  else if ∃ u ∈ g.neighbors m.1, current u = m.2 then acc
  else
    let new_value := current_value - current m.1 + m.2
    let is_tabu : Bool := match tabu m with
      | some t => iteration ≤ t
      | none => false
    if is_tabu ∧ best_value ≤ new_value then acc
    else match acc with
      | none => some (m, new_value)
      | some (m₀, bmv) =>
          if new_value < bmv then some (m, new_value) else some (m₀, bmv)

/-- The whole move-exploration loop of one iteration: the selected
`(best_move, best_move_value)`, or `none` when no admissible move exists. -/
def selectMove (g : Graph) (current : Nat → Nat)
    (current_value max_color iteration best_value : Nat)
    (tabu : Nat × Nat → Option Nat) : Option ((Nat × Nat) × Nat) :=
  (movePairs g.vcount max_color).foldl
    (consider g current current_value iteration best_value tabu) none

/-- One pass of the `while` body after the guard: bump the iteration
counter, explore moves, and either report `none` (the `break` when no
admissible move exists) or the updated state: apply the move, record the
reverse move as tabu until `iteration + tabu_tenure`, extend `max_color`,
and update the incumbent / stagnation counter. -/
def tabuStep (g : Graph) (cfg : TabuSearchConfig) (s : TabuState) :
    Option TabuState :=
  match selectMove g s.current s.current_value s.max_color (s.iteration + 1)
      s.best_value s.tabu with
  | none => none
  | some (m, nv) =>
      some ⟨fun u => if u = m.1 then m.2 else s.current u,
        nv,
        if nv < s.best_value then
          (fun u => if u = m.1 then m.2 else s.current u) else s.best,
        if nv < s.best_value then nv else s.best_value,
        fun q => if q = (m.1, s.current m.1) then
          some (s.iteration + 1 + cfg.tabu_tenure) else s.tabu q,
        max s.max_color m.2,
        if nv < s.best_value then 0 else s.no_improve + 1,
        s.iteration + 1⟩

/-- The `while iteration < max_iterations and iterations_without_improve <
max_no_improve` loop, with fuel.  `tabu_search_msc` supplies
`max_iterations` as fuel, which dominates the iteration count (the
counter starts at 0 and increases by one per pass), so fuel exhaustion
coincides with the guard failing. -/
def tabuLoop (g : Graph) (cfg : TabuSearchConfig) :
    Nat → TabuState → TabuState
  | 0, s => s
  | fuel + 1, s =>
      if s.iteration < cfg.max_iterations ∧ s.no_improve < cfg.max_no_improve
      then
        match tabuStep g cfg s with
        | none => s
        | some s' => tabuLoop g cfg fuel s'
      else s

/-- The state of `tabu_search_msc` just before the loop: working copy of
the initial coloring, its objective, the same incumbent, empty tabu
record, `max_color = max(values)` (0 when there are no vertices), and
zeroed counters. -/
def initState (g : Graph) (initial : Nat → Nat) : TabuState :=
  ⟨initial,
    objVal g initial,
    initial,
    objVal g initial,
    fun _ => none,
    (Finset.range g.vcount).sup initial,
    0,
    0⟩

/-- Embedding of `tabu_search_msc`: run the loop and return the incumbent
coloring and its objective value. -/
def tabu_search_msc (g : Graph) (initial : Nat → Nat)
    (cfg : TabuSearchConfig) : (Nat → Nat) × Nat :=
  let s := tabuLoop g cfg cfg.max_iterations (initState g initial)
  (s.best, s.best_value)

/-! ### Random graph generation (`graph_generation.py`)

The PRNG is modelled abstractly: `seedStream s i` is the `i`-th value of
`random.Random(s).random()` (an arbitrary function of the seed — the
library guarantees it is deterministic), and `entropy i` the `i`-th draw
of an unseeded `random.Random(None)` (ambient entropy, different on every
call).  Draw values are embedded as rationals compared against `p`. -/

/-- The stream of draws actually used by one generator call: the seeded
stream when a seed is given, the ambient entropy otherwise. -/
def resolveStream (seedStream : Int → Nat → ℚ) (entropy : Nat → ℚ)
    (seed : Option Int) : Nat → ℚ :=
  match seed with
  | some s => seedStream s
  | none => entropy

/-- The unordered vertex pairs `(u, v)`, `u < v < m`, in the order the
double loop `for u in range(n): for v in range(u+1, n)` visits them. -/
def pairList (m : Nat) : List (Nat × Nat) :=
  (List.range m).flatMap (fun u =>
    ((List.range m).filter (fun v => u < v)).map (fun v => (u, v)))

/-- The adjacency map built by the generator: the `k`-th visited pair is
an edge iff the `k`-th draw is `< p`; each edge is recorded in both
endpoints' neighbor sets. -/
def genAdj (m : Nat) (p : ℚ) (stream : Nat → ℚ) : Nat → Finset Nat :=
  let edges := (pairList m).enum.filterMap
    (fun ie => if stream ie.1 < p then some ie.2 else none)
  fun w => (edges.filterMap (fun e =>
    if e.1 = w then some e.2 else if e.2 = w then some e.1 else none)).toFinset

/-- Embedding of `generate_erdos_renyi_graph`: validate `p` (raising
`ValueError("p must be in [0, 1]")`, the spec's `InvalidParameter`), then
build the `G(n, p)` adjacency from the resolved draw stream.  The vertex
count `n` is not validated. -/
def generate_erdos_renyi_graph (seedStream : Int → Nat → ℚ)
    (entropy : Nat → ℚ) (n : Int) (p : ℚ) (seed : Option Int) :
    Except String Graph :=
  if ¬(0 ≤ p ∧ p ≤ 1) then Except.error "p must be in [0, 1]"
  else Except.ok ⟨n, genAdj n.toNat p (resolveStream seedStream entropy seed)⟩

/-- Embedding of `generate_random_graphs`: with a base seed, the `i`-th
graph is generated with seed `base_seed + i`; without one, every graph
draws from its own ambient entropy (`entropyFam i` for the `i`-th call). -/
def generate_random_graphs (seedStream : Int → Nat → ℚ)
    (entropyFam : Nat → Nat → ℚ) (count : Nat) (n : Int) (p : ℚ)
    (base_seed : Option Int) : List (Except String Graph) :=
  match base_seed with
  | none => (List.range count).map (fun i =>
      generate_erdos_renyi_graph seedStream (entropyFam i) n p none)
  | some b => (List.range count).map (fun i =>
      generate_erdos_renyi_graph seedStream (entropyFam i) n p (some (b + i)))

/-- The states of a run, indexed by the number of loop passes consumed:
`tabuStates g initial cfg k` is the state after at most `k` passes (the
sequence is constant from the pass at which the run stops). -/
def tabuStates (g : Graph) (initial : Nat → Nat) (cfg : TabuSearchConfig)
    (k : Nat) : TabuState :=
  tabuLoop g cfg k (initState g initial)

/-! ### Association-list lemmas -/

theorem alookup_append_of_some {a : List (Nat × Nat)} {u c : Nat}
    (b : List (Nat × Nat)) (h : alookup a u = some c) :
    alookup (a ++ b) u = some c := by
  induction a with
  | nil => simp [alookup] at h
  | cons kc rest ih =>
      obtain ⟨k, c'⟩ := kc
      by_cases hk : u = k
      · simpa [alookup, hk] using by simpa [alookup, hk] using h
      · simp [alookup, hk] at h ⊢
        exact ih h

theorem alookup_append_of_none {a : List (Nat × Nat)} {u : Nat}
    (b : List (Nat × Nat)) (h : alookup a u = none) :
    alookup (a ++ b) u = alookup b u := by
  induction a with
  | nil => simp
  | cons kc rest ih =>
      obtain ⟨k, c'⟩ := kc
      by_cases hk : u = k
      · simp [alookup, hk] at h
      · simp [alookup, hk] at h ⊢
        exact ih h

theorem alookup_eq_none_iff {col : List (Nat × Nat)} {u : Nat} :
    alookup col u = none ↔ u ∉ keysOf col := by
  induction col with
  | nil => simp [alookup, keysOf]
  | cons kc rest ih =>
      obtain ⟨k, c⟩ := kc
      by_cases hk : u = k <;> simp [alookup, keysOf, hk, ih]

theorem alookup_isSome_of_mem {col : List (Nat × Nat)} {u : Nat}
    (h : u ∈ keysOf col) : (alookup col u).isSome := by
  cases hc : alookup col u with
  | none => exact absurd (alookup_eq_none_iff.mp hc) (by simpa using h)
  | some c => rfl

/-- Sum of the dict's values as a sum over its key set, for distinct keys. -/
theorem values_sum_eq {col : List (Nat × Nat)} (h : (keysOf col).Nodup) :
    (col.map Prod.snd).sum =
      ∑ k ∈ (keysOf col).toFinset, (alookup col k).getD 0 := by
  induction col with
  | nil => simp [keysOf]
  | cons kc rest ih =>
      obtain ⟨k, c⟩ := kc
      simp only [keysOf, List.map_cons, List.nodup_cons] at h
      obtain ⟨hk, hrest⟩ := h
      have hins : (keysOf ((k, c) :: rest)).toFinset =
          insert k (keysOf rest).toFinset := by
        simp [keysOf]
      rw [hins, Finset.sum_insert (by simpa [keysOf] using hk)]
      have hsum : ∑ x ∈ (keysOf rest).toFinset, (alookup ((k, c) :: rest) x).getD 0 =
          ∑ x ∈ (keysOf rest).toFinset, (alookup rest x).getD 0 := by
        refine Finset.sum_congr rfl ?_
        intro x hx
        have hxk : x ≠ k := by
          intro e
          exact hk (by simpa [keysOf, e] using hx)
        simp [alookup, hxk]
      simp only [List.map_cons, List.sum_cons]
      rw [hsum, ih hrest]
      simp [alookup]

/-! ### Smallest-free-color lemmas -/

theorem freeFrom_ok (f : Finset Nat) :
    ∀ (fuel start : Nat), (f.filter (fun x => start ≤ x)).card < fuel →
      start ≤ freeFrom f fuel start ∧ freeFrom f fuel start ∉ f ∧
        ∀ c, start ≤ c → c ∉ f → freeFrom f fuel start ≤ c := by
  intro fuel
  induction fuel with
  | zero => intro start h; exact absurd h (Nat.not_lt_zero _)
  | succ n ih =>
      intro start h
      by_cases hs : start ∈ f
      · have hmem : start ∈ f.filter (fun x => start ≤ x) := by
          simp [Finset.mem_filter, hs]
        have hsub : f.filter (fun x => start + 1 ≤ x) ⊆
            (f.filter (fun x => start ≤ x)).erase start := by
          intro x hx
          simp only [Finset.mem_filter, Finset.mem_erase] at hx ⊢
          exact ⟨by omega, hx.1, by omega⟩
        have h1 := Finset.card_le_card hsub
        have h2 := Finset.card_erase_of_mem hmem
        have h3 : 0 < (f.filter (fun x => start ≤ x)).card :=
          Finset.card_pos.mpr ⟨start, hmem⟩
        have hcard : (f.filter (fun x => start + 1 ≤ x)).card < n := by omega
        obtain ⟨ih1, ih2, ih3⟩ := ih (start + 1) hcard
        have hunf : freeFrom f (n + 1) start = freeFrom f n (start + 1) := by
          simp [freeFrom, hs]
        rw [hunf]
        refine ⟨by omega, ih2, ?_⟩
        intro c hc hcf
        have hne : c ≠ start := fun e => hcf (e ▸ hs)
        exact ih3 c (by omega) hcf
      · have hunf : freeFrom f (n + 1) start = start := by
          simp [freeFrom, hs]
        rw [hunf]
        exact ⟨le_refl _, hs, fun c hc _ => hc⟩

theorem smallestFree_spec (f : Finset Nat) :
    1 ≤ smallestFree f ∧ smallestFree f ∉ f ∧
      ∀ c, 1 ≤ c → c ∉ f → smallestFree f ≤ c := by
  have h : (f.filter (fun x => 1 ≤ x)).card < f.card + 1 :=
    Nat.lt_succ_of_le (Finset.card_filter_le f _)
  exact freeFrom_ok f (f.card + 1) 1 h

/-! ### Soundness of the move selection -/

/-- Everything true of a move returned by `selectMove` when called with
current coloring `current`, current objective `cv`, highest color `mc`,
iteration counter `it`, incumbent value `bv` and tabu record `tb`:
enumeration bounds, a genuine recoloring, feasibility preservation, the
incremental objective, and tabu rejection with aspiration as the sole
exception. -/
def MoveOK (g : Graph) (current : Nat → Nat) (cv mc it bv : Nat)
    (tb : Nat × Nat → Option Nat) (m : Nat × Nat) (nv : Nat) : Prop :=
  m.1 < g.vcount ∧ 1 ≤ m.2 ∧ m.2 ≤ mc + 1 ∧ m.2 ≠ current m.1 ∧
  (∀ u ∈ g.neighbors m.1, current u ≠ m.2) ∧
  nv = cv - current m.1 + m.2 ∧
  (∀ t, tb m = some t → it ≤ t → nv < bv)

theorem mem_movePairs {n mc : Nat} {p : Nat × Nat} :
    p ∈ movePairs n mc ↔ p.1 < n ∧ 1 ≤ p.2 ∧ p.2 ≤ mc + 1 := by
  obtain ⟨v, c⟩ := p
  simp only [movePairs, List.mem_flatMap, List.mem_map, List.mem_range]
  constructor
  · rintro ⟨u, hu, i, hi, he⟩
    obtain ⟨he1, he2⟩ := Prod.ext_iff.mp he
    simp only at he1 he2
    omega
  · rintro ⟨hv, hc1, hc2⟩
    exact ⟨v, hv, c - 1, by omega, by simp; omega⟩

theorem consider_ok {g : Graph} {current : Nat → Nat} {cv mc it bv : Nat}
    {tb : Nat × Nat → Option Nat} {acc : Option ((Nat × Nat) × Nat)}
    {m : Nat × Nat}
    (hm : m.1 < g.vcount ∧ 1 ≤ m.2 ∧ m.2 ≤ mc + 1)
    (hacc : ∀ m' nv', acc = some (m', nv') → MoveOK g current cv mc it bv tb m' nv') :
    ∀ m' nv', consider g current cv it bv tb acc m = some (m', nv') →
      MoveOK g current cv mc it bv tb m' nv' := by
  intro m' nv' h
  unfold consider at h
  by_cases h1 : m.2 = current m.1
  · rw [if_pos h1] at h; exact hacc m' nv' h
  · rw [if_neg h1] at h
    by_cases h2 : ∃ u ∈ g.neighbors m.1, current u = m.2
    · rw [if_pos h2] at h; exact hacc m' nv' h
    · rw [if_neg h2] at h
      simp only at h
      by_cases h3 : ((match tb m with
            | some t => decide (it ≤ t)
            | none => false) = true) ∧ bv ≤ cv - current m.1 + m.2
      · rw [if_pos h3] at h; exact hacc m' nv' h
      · rw [if_neg h3] at h
        have hnew : MoveOK g current cv mc it bv tb m (cv - current m.1 + m.2) := by
          refine ⟨hm.1, hm.2.1, hm.2.2, h1, ?_, rfl, ?_⟩
          · intro u hu he
            exact h2 ⟨u, hu, he⟩
          · intro t ht hit
            by_contra hge
            exact h3 ⟨by rw [ht]; simpa using hit, by omega⟩
        cases hc : acc with
        | none =>
            rw [hc] at h
            have h' : some (m, cv - current m.1 + m.2) = some (m', nv') := h
            obtain ⟨e1, e2⟩ := Prod.ext_iff.mp (Option.some.inj h')
            simp only at e1 e2
            rw [← e1, ← e2]
            exact hnew
        | some p =>
            obtain ⟨m₀, bmv⟩ := p
            rw [hc] at h
            have h' : (if cv - current m.1 + m.2 < bmv then
                some (m, cv - current m.1 + m.2) else some (m₀, bmv)) =
                some (m', nv') := h
            by_cases hlt : cv - current m.1 + m.2 < bmv
            · rw [if_pos hlt] at h'
              obtain ⟨e1, e2⟩ := Prod.ext_iff.mp (Option.some.inj h')
              simp only at e1 e2
              rw [← e1, ← e2]
              exact hnew
            · rw [if_neg hlt] at h'
              obtain ⟨e1, e2⟩ := Prod.ext_iff.mp (Option.some.inj h')
              simp only at e1 e2
              rw [← e1, ← e2]
              exact hacc m₀ bmv hc

theorem foldl_consider_ok {g : Graph} {current : Nat → Nat}
    {cv mc it bv : Nat} {tb : Nat × Nat → Option Nat} :
    ∀ (ms : List (Nat × Nat)) (acc : Option ((Nat × Nat) × Nat)),
      (∀ p ∈ ms, p.1 < g.vcount ∧ 1 ≤ p.2 ∧ p.2 ≤ mc + 1) →
      (∀ m' nv', acc = some (m', nv') → MoveOK g current cv mc it bv tb m' nv') →
      ∀ m' nv', ms.foldl (consider g current cv it bv tb) acc = some (m', nv') →
        MoveOK g current cv mc it bv tb m' nv'
  | [], acc, _, hacc, m', nv', h => hacc m' nv' h
  | p :: rest, acc, hms, hacc, m', nv', h => by
      have hp := hms p (List.mem_cons_self p rest)
      have hrest : ∀ q ∈ rest, q.1 < g.vcount ∧ 1 ≤ q.2 ∧ q.2 ≤ mc + 1 :=
        fun q hq => hms q (List.mem_cons_of_mem p hq)
      exact foldl_consider_ok rest _ hrest (consider_ok hp hacc) m' nv'
        (by simpa using h)

/-- Any move returned by `selectMove` satisfies `MoveOK`. -/
theorem selectMove_sound {g : Graph} {current : Nat → Nat}
    {cv mc it bv : Nat} {tb : Nat × Nat → Option Nat} {m : Nat × Nat} {nv : Nat}
    (h : selectMove g current cv mc it bv tb = some (m, nv)) :
    MoveOK g current cv mc it bv tb m nv := by
  refine foldl_consider_ok (movePairs g.vcount mc) none ?_ (by simp) m nv h
  intro p hp
  exact mem_movePairs.mp hp

/-! ### Tabu loop lemmas -/

theorem tabuStep_inv {g : Graph} {cfg : TabuSearchConfig} {s s' : TabuState}
    (h : tabuStep g cfg s = some s') :
    ∃ m nv, selectMove g s.current s.current_value s.max_color
        (s.iteration + 1) s.best_value s.tabu = some (m, nv) ∧
      s'.current = (fun u => if u = m.1 then m.2 else s.current u) ∧
      s'.current_value = nv ∧
      s'.best = (if nv < s.best_value then
          (fun u => if u = m.1 then m.2 else s.current u) else s.best) ∧
      s'.best_value = (if nv < s.best_value then nv else s.best_value) ∧
      s'.tabu = (fun q => if q = (m.1, s.current m.1) then
          some (s.iteration + 1 + cfg.tabu_tenure) else s.tabu q) ∧
      s'.max_color = max s.max_color m.2 ∧
      s'.no_improve = (if nv < s.best_value then 0 else s.no_improve + 1) ∧
      s'.iteration = s.iteration + 1 := by
  unfold tabuStep at h
  cases hsel : selectMove g s.current s.current_value s.max_color
      (s.iteration + 1) s.best_value s.tabu with
  | none => rw [hsel] at h; exact absurd h (by simp)
  | some p =>
      obtain ⟨⟨mv, mc⟩, nv⟩ := p
      rw [hsel] at h
      refine ⟨(mv, mc), nv, rfl, ?_⟩
      have h' : some (⟨fun u => if u = mv then mc else s.current u,
          nv,
          if nv < s.best_value then
            (fun u => if u = mv then mc else s.current u) else s.best,
          if nv < s.best_value then nv else s.best_value,
          fun q => if q = (mv, s.current mv) then
            some (s.iteration + 1 + cfg.tabu_tenure) else s.tabu q,
          max s.max_color mc,
          if nv < s.best_value then 0 else s.no_improve + 1,
          s.iteration + 1⟩ : TabuState) = some s' := h
      obtain rfl := (Option.some.inj h').symm
      exact ⟨rfl, rfl, rfl, rfl, rfl, rfl, rfl, rfl⟩

/-- The loop guard of `tabu_search_msc`. -/
def loopGuard (cfg : TabuSearchConfig) (s : TabuState) : Prop :=
  s.iteration < cfg.max_iterations ∧ s.no_improve < cfg.max_no_improve

instance (cfg : TabuSearchConfig) (s : TabuState) : Decidable (loopGuard cfg s) := by
  unfold loopGuard; exact inferInstance

theorem tabuLoop_invariant {g : Graph} {cfg : TabuSearchConfig}
    (P : TabuState → Prop)
    (hstep : ∀ s s', P s → tabuStep g cfg s = some s' → P s') :
    ∀ (fuel : Nat) (s : TabuState), P s → P (tabuLoop g cfg fuel s)
  | 0, _, hP => hP
  | fuel + 1, s, hP => by
      unfold tabuLoop
      by_cases hg : s.iteration < cfg.max_iterations ∧
          s.no_improve < cfg.max_no_improve
      · rw [if_pos hg]
        cases hst : tabuStep g cfg s with
        | none => exact hP
        | some s' =>
            exact tabuLoop_invariant P hstep fuel s' (hstep s s' hP hst)
      · rw [if_neg hg]
        exact hP

theorem tabuLoop_of_guard_false {g : Graph} {cfg : TabuSearchConfig}
    {s : TabuState}
    (h : ¬(s.iteration < cfg.max_iterations ∧
        s.no_improve < cfg.max_no_improve)) :
    ∀ fuel, tabuLoop g cfg fuel s = s
  | 0 => rfl
  | fuel + 1 => by unfold tabuLoop; rw [if_neg h]

theorem tabuLoop_of_step_none {g : Graph} {cfg : TabuSearchConfig}
    {s : TabuState} (h : tabuStep g cfg s = none) :
    ∀ fuel, tabuLoop g cfg fuel s = s
  | 0 => rfl
  | fuel + 1 => by
      unfold tabuLoop
      by_cases hg : s.iteration < cfg.max_iterations ∧
          s.no_improve < cfg.max_no_improve
      · rw [if_pos hg, h]
      · rw [if_neg hg]

theorem tabuLoop_succ_of_step {g : Graph} {cfg : TabuSearchConfig}
    {s s' : TabuState}
    (hg : s.iteration < cfg.max_iterations ∧ s.no_improve < cfg.max_no_improve)
    (hst : tabuStep g cfg s = some s') (fuel : Nat) :
    tabuLoop g cfg (fuel + 1) s = tabuLoop g cfg fuel s' := by
  conv_lhs => rw [tabuLoop]
  rw [if_pos hg, hst]

theorem tabuLoop_add (g : Graph) (cfg : TabuSearchConfig) :
    ∀ (a b : Nat) (s : TabuState),
      tabuLoop g cfg (a + b) s = tabuLoop g cfg b (tabuLoop g cfg a s)
  | 0, b, s => by rw [Nat.zero_add]; rfl
  | a + 1, b, s => by
      have harith : a + 1 + b = (a + b) + 1 := by omega
      rw [harith]
      by_cases hg : s.iteration < cfg.max_iterations ∧
          s.no_improve < cfg.max_no_improve
      · cases hst : tabuStep g cfg s with
        | none =>
            rw [show tabuLoop g cfg (a + b + 1) s = s by
                unfold tabuLoop; rw [if_pos hg, hst]]
            rw [show tabuLoop g cfg (a + 1) s = s by
                unfold tabuLoop; rw [if_pos hg, hst]]
            exact (tabuLoop_of_step_none hst b).symm
        | some s' =>
            rw [tabuLoop_succ_of_step hg hst (a + b),
              tabuLoop_succ_of_step hg hst a]
            exact tabuLoop_add g cfg a b s'
      · rw [tabuLoop_of_guard_false hg, tabuLoop_of_guard_false hg,
          tabuLoop_of_guard_false hg]
  termination_by a => a

/-- Every recorded tabu expiry is at most `iteration + tenure`: the
invariant that makes overwriting a tabu entry only ever extend it. -/
def TabuBound (cfg : TabuSearchConfig) (s : TabuState) : Prop :=
  ∀ q t, s.tabu q = some t → t ≤ s.iteration + cfg.tabu_tenure

theorem tabuStep_bound {g : Graph} {cfg : TabuSearchConfig} {s s' : TabuState}
    (hb : TabuBound cfg s) (h : tabuStep g cfg s = some s') :
    TabuBound cfg s' := by
  obtain ⟨m, nv, _, _, _, _, _, htabu, _, _, hit⟩ := tabuStep_inv h
  intro q t hq
  simp only [htabu] at hq
  by_cases he : q = (m.1, s.current m.1)
  · rw [if_pos he] at hq
    cases Option.some.inj hq
    rw [hit]
  · rw [if_neg he] at hq
    have := hb q t hq
    rw [hit]
    omega

theorem tabu_entry_persists {g : Graph} {cfg : TabuSearchConfig} :
    ∀ (fuel : Nat) (s : TabuState) (q : Nat × Nat) (T : Nat),
      TabuBound cfg s → s.tabu q = some T →
      ∃ T', (tabuLoop g cfg fuel s).tabu q = some T' ∧ T ≤ T'
  | 0, _, _, T, _, h => ⟨T, h, le_refl T⟩
  | fuel + 1, s, q, T, hb, h => by
      unfold tabuLoop
      by_cases hg : s.iteration < cfg.max_iterations ∧
          s.no_improve < cfg.max_no_improve
      · rw [if_pos hg]
        cases hst : tabuStep g cfg s with
        | none => exact ⟨T, h, le_refl T⟩
        | some s' =>
            obtain ⟨m, nv, _, _, _, _, _, htabu, _, _, hit⟩ := tabuStep_inv hst
            by_cases he : q = (m.1, s.current m.1)
            · have hT : T ≤ s.iteration + cfg.tabu_tenure := hb q T h
              have hq' : s'.tabu q =
                  some (s.iteration + 1 + cfg.tabu_tenure) := by
                simp only [htabu]
                rw [if_pos he]
              obtain ⟨T', hT', hle⟩ := tabu_entry_persists fuel s' q _
                (tabuStep_bound hb hst) hq'
              exact ⟨T', hT', by omega⟩
            · have hq' : s'.tabu q = some T := by
                simp only [htabu]
                rw [if_neg he]
                exact h
              exact tabu_entry_persists fuel s' q T (tabuStep_bound hb hst) hq'
      · rw [if_neg hg]
        exact ⟨T, h, le_refl T⟩

/-! ### Incremental objective -/

theorem objVal_update {g : Graph} {c : Nat → Nat} {v col : Nat}
    (hv : v < g.vcount) :
    objVal g (fun u => if u = v then col else c u) = objVal g c - c v + col := by
  have hv' : v ∈ Finset.range g.vcount := Finset.mem_range.mpr hv
  have h1 : objVal g (fun u => if u = v then col else c u) =
      col + ∑ u ∈ (Finset.range g.vcount).erase v, c u := by
    unfold objVal
    rw [← Finset.add_sum_erase _ _ hv']
    simp only [if_pos rfl]
    congr 1
    refine Finset.sum_congr rfl ?_
    intro x hx
    rw [if_neg (Finset.mem_erase.mp hx).1]
  have h2 : objVal g c = c v + ∑ u ∈ (Finset.range g.vcount).erase v, c u :=
    (Finset.add_sum_erase _ _ hv').symm
  omega

theorem tabuStep_value {g : Graph} {cfg : TabuSearchConfig} {s s' : TabuState}
    (hcv : s.current_value = objVal g s.current)
    (hbv : s.best_value = objVal g s.best)
    (h : tabuStep g cfg s = some s') :
    s'.current_value = objVal g s'.current ∧
      s'.best_value = objVal g s'.best := by
  obtain ⟨m, nv, hsel, hc, hcveq, hbest, hbveq, _, _, _, _⟩ := tabuStep_inv h
  obtain ⟨hv1, _, _, _, _, hnv, _⟩ := selectMove_sound hsel
  have hup : objVal g s'.current = objVal g s.current - s.current m.1 + m.2 := by
    rw [hc]
    exact objVal_update hv1
  have hcur : s'.current_value = objVal g s'.current := by
    rw [hcveq, hnv, hup, hcv]
  refine ⟨hcur, ?_⟩
  by_cases himp : nv < s.best_value
  · rw [hbveq, if_pos himp, hbest, if_pos himp, ← hc]
    exact hcveq ▸ hcur
  · rw [hbveq, if_neg himp, hbest, if_neg himp]
    exact hbv

/-! ### Concrete instances used by witnesses -/

/-- The two-vertex graph with the single edge `(0, 1)`. -/
def pathG2 : Graph := ⟨2, fun v => if v = 0 then {1} else if v = 1 then {0} else ∅⟩

/-- The coloring `0 ↦ 1, 1 ↦ 2` (and 2 elsewhere), feasible for `pathG2`. -/
def c12 : Nat → Nat := fun v => if v = 0 then 1 else 2

/-- A small configuration for concrete runs. -/
def cfgSmall : TabuSearchConfig := ⟨5, 7, 5⟩

/-- A configuration with a zero iteration budget. -/
def cfgZero : TabuSearchConfig := ⟨0, 7, 100⟩

/-- The ten-vertex graph with no edges (spec boundary case). -/
def emptyG : Graph := ⟨10, fun _ => ∅⟩

/-- The all-ones coloring. -/
def ones : Nat → Nat := fun _ => 1

/-- The default configuration `max_iterations=500, tabu_tenure=7,
max_no_improve=100`. -/
def defaultCfg : TabuSearchConfig := {}

theorem pathG2_wf : pathG2.WF := by
  refine ⟨?_, ?_, ?_⟩
  · intro u v h
    match u with
    | 0 =>
        simp [pathG2] at h
        subst h
        simp [pathG2]
    | 1 =>
        simp [pathG2] at h
        subst h
        simp [pathG2]
    | Nat.succ (Nat.succ k) =>
        have h0 : k + 2 ≠ 0 := by omega
        have h1 : k + 2 ≠ 1 := by omega
        simp [pathG2, h0, h1] at h
  · intro v
    match v with
    | 0 => simp [pathG2]
    | 1 => simp [pathG2]
    | Nat.succ (Nat.succ k) =>
        have h0 : k + 2 ≠ 0 := by omega
        have h1 : k + 2 ≠ 1 := by omega
        simp [pathG2, h0, h1]
  · intro u v h
    match u with
    | 0 =>
        simp [pathG2] at h
        subst h
        exact ⟨by decide, by decide⟩
    | 1 =>
        simp [pathG2] at h
        subst h
        exact ⟨by decide, by decide⟩
    | Nat.succ (Nat.succ k) =>
        have h0 : k + 2 ≠ 0 := by omega
        have h1 : k + 2 ≠ 1 := by omega
        simp [pathG2, h0, h1] at h

theorem c12_feasible : Feasible pathG2 c12 := by
  intro u v h
  match u with
  | 0 =>
      simp [pathG2, Graph.neighbors] at h
      subst h
      simp [c12]
  | 1 =>
      simp [pathG2, Graph.neighbors] at h
      subst h
      simp [c12]
  | Nat.succ (Nat.succ k) =>
      have h0 : k + 2 ≠ 0 := by omega
      have h1 : k + 2 ≠ 1 := by omega
      simp [pathG2, Graph.neighbors, h0, h1] at h

/-! ### Claim C1 — non-regression of the tabu objective -/

/-- C1: for every graph, feasible initial coloring and configuration,
`tabu_search_msc` returns an objective value less than or equal to the
objective value of the initial coloring. -/
theorem tabu_no_regression (g : Graph) (initial : Nat → Nat)
    (cfg : TabuSearchConfig) (hfeas : Feasible g initial) :
    (tabu_search_msc g initial cfg).2 ≤ objVal g initial := by
  have hmono : ∀ s s', s.best_value ≤ objVal g initial →
      tabuStep g cfg s = some s' → s'.best_value ≤ objVal g initial := by
    intro s s' hle hst
    obtain ⟨m, nv, _, _, _, _, hbveq, _, _, _, _⟩ := tabuStep_inv hst
    rw [hbveq]
    by_cases himp : nv < s.best_value
    · rw [if_pos himp]; omega
    · rw [if_neg himp]; exact hle
  exact tabuLoop_invariant (fun s => s.best_value ≤ objVal g initial) hmono
    cfg.max_iterations (initState g initial) (le_refl _)

theorem tabu_no_regression_witness :
    Feasible pathG2 c12 ∧
      (tabu_search_msc pathG2 c12 cfgSmall).2 ≤ objVal pathG2 c12 :=
  ⟨c12_feasible, tabu_no_regression pathG2 c12 cfgSmall c12_feasible⟩

/-! ### Claim C5 — returned value equals the recomputed objective -/

/-- C5: the objective value returned by `tabu_search_msc` equals the sum
of the colors of the coloring it returns: the incrementally maintained
objective (updated by `new_value = current_value - old_color + new_color`
per accepted move) agrees with recomputing `Σ color[v]` from scratch on
the returned best coloring. -/
theorem tabu_value_agrees (g : Graph) (initial : Nat → Nat)
    (cfg : TabuSearchConfig) :
    (tabu_search_msc g initial cfg).2 =
      objVal g (tabu_search_msc g initial cfg).1 :=
  (tabuLoop_invariant
    (fun s => s.current_value = objVal g s.current ∧
      s.best_value = objVal g s.best)
    (fun _ _ hP hst => tabuStep_value hP.1 hP.2 hst)
    cfg.max_iterations (initState g initial) ⟨rfl, rfl⟩).2

/-! ### Claim C10 — zero budget returns the initial coloring -/

/-- C10: when `max_iterations ≤ 0` or `max_no_improve ≤ 0`, the loop
guard fails immediately: `tabu_search_msc` applies no move and returns a
copy of the initial coloring with the sum of its color values. -/
theorem tabu_zero_budget_identity (g : Graph) (initial : Nat → Nat)
    (cfg : TabuSearchConfig)
    (h : cfg.max_iterations ≤ 0 ∨ cfg.max_no_improve ≤ 0) :
    tabu_search_msc g initial cfg = (initial, objVal g initial) := by
  have hstop : tabuLoop g cfg cfg.max_iterations (initState g initial) =
      initState g initial := by
    rcases h with h | h
    · have h0 : cfg.max_iterations = 0 := by omega
      rw [h0]
      rfl
    · apply tabuLoop_of_guard_false
      intro hg
      have h2 : (0 : Nat) < cfg.max_no_improve := hg.2
      omega
  show ((tabuLoop g cfg cfg.max_iterations (initState g initial)).best,
      (tabuLoop g cfg cfg.max_iterations (initState g initial)).best_value) =
    (initial, objVal g initial)
  rw [hstop]
  rfl

theorem tabu_zero_budget_identity_witness :
    (cfgZero.max_iterations ≤ 0 ∨ cfgZero.max_no_improve ≤ 0) ∧
      tabu_search_msc pathG2 c12 cfgZero = (c12, objVal pathG2 c12) :=
  ⟨Or.inl (by decide),
    tabu_zero_budget_identity pathG2 c12 cfgZero (Or.inl (by decide))⟩

/-! ### Claim C2 — feasibility of both outputs -/

/-- Feasibility of the partial coloring built by the greedy loop: any two
assigned adjacent vertices have different colors. -/
def PartialFeasible (g : Graph) (col : List (Nat × Nat)) : Prop :=
  ∀ u cu w cw, alookup col u = some cu → alookup col w = some cw →
    w ∈ g.neighbors u → cu ≠ cw

theorem alookup_snoc {col : List (Nat × Nat)} {v cv u : Nat}
    (h : alookup col u = none) :
    alookup (col ++ [(v, cv)]) u = if u = v then some cv else none := by
  rw [alookup_append_of_none _ h]
  simp [alookup]

theorem mem_forbiddenColors {g : Graph} {col : List (Nat × Nat)} {v x : Nat} :
    x ∈ forbiddenColors g col v ↔
      ∃ u ∈ g.neighbors v, alookup col u = some x := by
  unfold forbiddenColors
  rw [Finset.mem_image]
  constructor
  · rintro ⟨u, hu, hx⟩
    rw [Finset.mem_filter] at hu
    cases hlk : alookup col u with
    | none => rw [hlk] at hu; simp at hu
    | some c =>
        rw [hlk] at hx
        simp only [Option.getD_some] at hx
        exact ⟨u, hu.1, by rw [hlk, hx]⟩
  · rintro ⟨u, hu, hlk⟩
    refine ⟨u, ?_, ?_⟩
    · rw [Finset.mem_filter]
      exact ⟨hu, by simp [hlk]⟩
    · simp [hlk]

theorem partialFeasible_snoc {g : Graph} {col : List (Nat × Nat)} {v : Nat}
    (hsym : ∀ a b, b ∈ g.adj a → a ∈ g.adj b)
    (hirr : ∀ a, a ∉ g.adj a)
    (hpf : PartialFeasible g col) :
    PartialFeasible g (col ++ [(v, smallestFree (forbiddenColors g col v))]) := by
  intro u cu w cw hu hw hadj
  obtain ⟨hpos, hnotmem, hmin⟩ := smallestFree_spec (forbiddenColors g col v)
  cases hcu : alookup col u with
  | some c =>
      have hcu' : cu = c :=
        (Option.some.inj ((alookup_append_of_some [(v, _)] hcu).symm.trans hu)).symm
      cases hcw : alookup col w with
      | some c' =>
          have hcw' : cw = c' :=
            (Option.some.inj ((alookup_append_of_some [(v, _)] hcw).symm.trans hw)).symm
          rw [hcu', hcw']
          exact hpf u c w c' hcu hcw hadj
      | none =>
          rw [alookup_snoc hcw] at hw
          by_cases hwv : w = v
          · rw [if_pos hwv] at hw
            have hcweq : cw = smallestFree (forbiddenColors g col v) :=
              (Option.some.inj hw).symm
            have hmem : c ∈ forbiddenColors g col v := by
              rw [mem_forbiddenColors]
              have hadj' : v ∈ g.adj u := by rw [← hwv]; exact hadj
              exact ⟨u, hsym u v hadj', hcu⟩
            rw [hcu', hcweq]
            exact fun he => hnotmem (he ▸ hmem)
          · rw [if_neg hwv] at hw
            exact absurd hw (by simp)
  | none =>
      rw [alookup_snoc hcu] at hu
      by_cases huv : u = v
      · rw [if_pos huv] at hu
        have hcueq : cu = smallestFree (forbiddenColors g col v) :=
          (Option.some.inj hu).symm
        cases hcw : alookup col w with
        | some c' =>
            have hcw' : cw = c' :=
              (Option.some.inj ((alookup_append_of_some [(v, _)] hcw).symm.trans hw)).symm
            have hmem : c' ∈ forbiddenColors g col v := by
              rw [mem_forbiddenColors]
              exact ⟨w, huv ▸ hadj, hcw⟩
            rw [hcueq, hcw']
            exact fun he => hnotmem (he.symm ▸ hmem)
        | none =>
            rw [alookup_snoc hcw] at hw
            by_cases hwv : w = v
            · exfalso
              apply hirr v
              have h1 : w ∈ g.adj u := hadj
              rw [huv, hwv] at h1
              exact h1
            · rw [if_neg hwv] at hw
              exact absurd hw (by simp)
      · rw [if_neg huv] at hu
        exact absurd hu (by simp)

theorem greedyGo_partialFeasible {g : Graph}
    (hsym : ∀ a b, b ∈ g.adj a → a ∈ g.adj b)
    (hirr : ∀ a, a ∉ g.adj a) :
    ∀ (l : List Nat) (col : List (Nat × Nat)),
      PartialFeasible g col → PartialFeasible g (greedyGo g l col)
  | [], _, h => h
  | v :: rest, col, h =>
      greedyGo_partialFeasible hsym hirr rest _ (partialFeasible_snoc hsym hirr h)

theorem greedyGo_keys (g : Graph) :
    ∀ (l : List Nat) (col : List (Nat × Nat)),
      keysOf (greedyGo g l col) = keysOf col ++ l
  | [], col => by simp [greedyGo]
  | v :: rest, col => by
      show keysOf (greedyGo g rest (col ++ [(v, _)])) = keysOf col ++ (v :: rest)
      rw [greedyGo_keys g rest]
      simp [keysOf]

theorem greedy_keys (g : Graph) : keysOf (greedy_msc g).1 = sortedVertices g := by
  show keysOf (greedyGo g (sortedVertices g) []) = _
  rw [greedyGo_keys]
  simp [keysOf]

theorem sortedVertices_perm (g : Graph) :
    (sortedVertices g).Perm (List.range g.vcount) :=
  List.perm_insertionSort _ _

theorem greedy_lookup_isSome {g : Graph} {u : Nat} (hu : u < g.vcount) :
    (alookup (greedy_msc g).1 u).isSome := by
  apply alookup_isSome_of_mem
  rw [greedy_keys]
  exact (sortedVertices_perm g).mem_iff.mpr (List.mem_range.mpr hu)

theorem feasible_update {g : Graph} {c : Nat → Nat} {v col : Nat}
    (hsym : ∀ a b, b ∈ g.adj a → a ∈ g.adj b)
    (hfeas : Feasible g c)
    (hok : ∀ u ∈ g.neighbors v, c u ≠ col) :
    Feasible g (fun u => if u = v then col else c u) := by
  intro a b hb
  show (if a = v then col else c a) ≠ (if b = v then col else c b)
  by_cases hav : a = v
  · by_cases hbv : b = v
    · rw [hav, ← hbv] at hb
      exact absurd rfl (hfeas b b hb)
    · rw [if_pos hav, if_neg hbv]
      exact fun he => hok b (hav ▸ hb) he.symm
  · by_cases hbv : b = v
    · rw [if_neg hav, if_pos hbv]
      exact hok a (hsym a v (hbv ▸ hb))
    · rw [if_neg hav, if_neg hbv]
      exact hfeas a b hb

theorem tabuStep_feasible {g : Graph} {cfg : TabuSearchConfig}
    {s s' : TabuState}
    (hsym : ∀ a b, b ∈ g.adj a → a ∈ g.adj b)
    (hP : Feasible g s.current ∧ Feasible g s.best)
    (hst : tabuStep g cfg s = some s') :
    Feasible g s'.current ∧ Feasible g s'.best := by
  obtain ⟨m, nv, hsel, hc, _, hbest, _, _, _, _, _⟩ := tabuStep_inv hst
  obtain ⟨_, _, _, _, hnbr, _, _⟩ := selectMove_sound hsel
  have hfeas' : Feasible g (fun u => if u = m.1 then m.2 else s.current u) :=
    feasible_update hsym hP.1 hnbr
  have hcur' : Feasible g s'.current := by rw [hc]; exact hfeas'
  refine ⟨hcur', ?_⟩
  rw [hbest]
  by_cases himp : nv < s.best_value
  · rw [if_pos himp]; exact hfeas'
  · rw [if_neg himp]; exact hP.2

/-- C2: for a well-formed graph, the greedy coloring is feasible (no edge
joins equal colors), and for every feasible initial coloring the coloring
returned by `tabu_search_msc` is feasible as well. -/
theorem greedy_and_tabu_feasible (g : Graph) (hWF : g.WF)
    (initial : Nat → Nat) (cfg : TabuSearchConfig)
    (hfeas : Feasible g initial) :
    Feasible g (greedyColoring g) ∧
      Feasible g (tabu_search_msc g initial cfg).1 := by
  obtain ⟨hsym, hirr, hrange⟩ := hWF
  constructor
  · have hpf : PartialFeasible g (greedy_msc g).1 :=
      greedyGo_partialFeasible hsym hirr (sortedVertices g) []
        (fun u cu w cw hu => by simp [alookup] at hu)
    intro u v hadj
    obtain ⟨hu2, hv2⟩ := hrange u v hadj
    cases hlu : alookup (greedy_msc g).1 u with
    | none =>
        exact absurd (greedy_lookup_isSome hu2) (by rw [hlu]; simp)
    | some cu =>
        cases hlv : alookup (greedy_msc g).1 v with
        | none =>
            exact absurd (greedy_lookup_isSome hv2) (by rw [hlv]; simp)
        | some cv =>
            have hne : cu ≠ cv := hpf u cu v cv hlu hlv hadj
            unfold greedyColoring
            rw [hlu, hlv]
            simpa using hne
  · exact (tabuLoop_invariant
      (fun s => Feasible g s.current ∧ Feasible g s.best)
      (fun _ _ hP hst => tabuStep_feasible hsym hP hst)
      cfg.max_iterations (initState g initial) ⟨hfeas, hfeas⟩).2

theorem greedy_and_tabu_feasible_witness :
    pathG2.WF ∧ Feasible pathG2 c12 ∧
      (Feasible pathG2 (greedyColoring pathG2) ∧
        Feasible pathG2 (tabu_search_msc pathG2 c12 cfgSmall).1) :=
  ⟨pathG2_wf, c12_feasible,
    greedy_and_tabu_feasible pathG2 pathG2_wf c12 cfgSmall c12_feasible⟩

/-! ### Claim C8 — boundary: ten vertices, no edges -/

/-- C8: on the ten-vertex edgeless graph, `greedy_msc` assigns color 1 to
every vertex with objective 10, and `tabu_search_msc` started from the
all-ones coloring under the default configuration returns that same
all-ones coloring with objective 10 (no move can beat the all-ones sum,
so the incumbent is never replaced). -/
theorem empty_graph_boundary :
    (greedy_msc emptyG).1 = (List.range 10).map (fun v => (v, 1)) ∧
      (greedy_msc emptyG).2 = 10 ∧
      tabu_search_msc emptyG ones defaultCfg = (ones, 10) := by
  refine ⟨by decide, by decide, ?_⟩
  have hstep : ∀ s s',
      (s.best = ones ∧ s.best_value = 10 ∧
        s.current_value = objVal emptyG s.current ∧ ∀ u, 1 ≤ s.current u) →
      tabuStep emptyG defaultCfg s = some s' →
      (s'.best = ones ∧ s'.best_value = 10 ∧
        s'.current_value = objVal emptyG s'.current ∧ ∀ u, 1 ≤ s'.current u) := by
    intro s s' hP hst
    obtain ⟨hbest0, hbv0, hcv0, hpos0⟩ := hP
    obtain ⟨m, nv, hsel, hc, hcveq, hbest, hbveq, _, _, _, _⟩ := tabuStep_inv hst
    obtain ⟨hv1, hc1, _, _, _, hnv, _⟩ := selectMove_sound hsel
    have hup : objVal emptyG s'.current =
        objVal emptyG s.current - s.current m.1 + m.2 := by
      rw [hc]
      exact objVal_update hv1
    have hcur : s'.current_value = objVal emptyG s'.current := by
      rw [hcveq, hnv, hup, hcv0]
    have hpos' : ∀ u, 1 ≤ s'.current u := by
      intro u
      rw [hc]
      show 1 ≤ if u = m.1 then m.2 else s.current u
      by_cases hum : u = m.1
      · rw [if_pos hum]; exact hc1
      · rw [if_neg hum]; exact hpos0 u
    have hge : 10 ≤ nv := by
      have h1 : (10 : Nat) = ∑ _v ∈ Finset.range emptyG.vcount, 1 := by decide
      have h2 : ∑ _v ∈ Finset.range emptyG.vcount, 1 ≤
          objVal emptyG s'.current :=
        Finset.sum_le_sum (fun i _ => hpos' i)
      omega
    have hnimp : ¬(nv < s.best_value) := by rw [hbv0]; omega
    refine ⟨?_, ?_, hcur, hpos'⟩
    · rw [hbest, if_neg hnimp]; exact hbest0
    · rw [hbveq, if_neg hnimp]; exact hbv0
  have hfin := tabuLoop_invariant
    (fun s => s.best = ones ∧ s.best_value = 10 ∧
      s.current_value = objVal emptyG s.current ∧ ∀ u, 1 ≤ s.current u)
    hstep defaultCfg.max_iterations (initState emptyG ones)
    ⟨rfl, by decide, rfl, fun _ => le_refl 1⟩
  show ((tabuLoop emptyG defaultCfg defaultCfg.max_iterations
        (initState emptyG ones)).best,
      (tabuLoop emptyG defaultCfg defaultCfg.max_iterations
        (initState emptyG ones)).best_value) = (ones, 10)
  rw [hfin.1, hfin.2.1]

/-! ### Claim C3 — the tabu record is respected for a full tenure -/

/-- C3: suppose the pass after state `k` of a run applies a move
reassigning vertex `v` (from its color `a`) to color `b` at iteration
`t = iteration(k) + 1`.  Then at any later pass `m` whose iteration
counter is still within the tenure window (`iteration(m) + 1 ≤ t +
tabu_tenure`), the move returning `v` to `a` cannot be selected with a
resulting objective `nva` that fails the aspiration test (`best_value ≤
nva`): a tabu move is rejected unless it would beat the current best
objective, which is the sole exception. -/
theorem tabu_tenure_respected (g : Graph) (initial : Nat → Nat)
    (cfg : TabuSearchConfig) (k m : Nat) (hkm : k < m)
    (v b nvb a nva : Nat)
    (hguard : (tabuStates g initial cfg k).iteration < cfg.max_iterations ∧
      (tabuStates g initial cfg k).no_improve < cfg.max_no_improve)
    (hsel : selectMove g (tabuStates g initial cfg k).current
      (tabuStates g initial cfg k).current_value
      (tabuStates g initial cfg k).max_color
      ((tabuStates g initial cfg k).iteration + 1)
      (tabuStates g initial cfg k).best_value
      (tabuStates g initial cfg k).tabu = some ((v, b), nvb))
    (ha : a = (tabuStates g initial cfg k).current v)
    (hwin : (tabuStates g initial cfg m).iteration + 1 ≤
      (tabuStates g initial cfg k).iteration + 1 + cfg.tabu_tenure)
    (hge : (tabuStates g initial cfg m).best_value ≤ nva) :
    selectMove g (tabuStates g initial cfg m).current
      (tabuStates g initial cfg m).current_value
      (tabuStates g initial cfg m).max_color
      ((tabuStates g initial cfg m).iteration + 1)
      (tabuStates g initial cfg m).best_value
      (tabuStates g initial cfg m).tabu ≠ some ((v, a), nva) := by
  obtain ⟨s₁, hstep⟩ : ∃ s₁,
      tabuStep g cfg (tabuStates g initial cfg k) = some s₁ := by
    unfold tabuStep
    rw [hsel]
    exact ⟨_, rfl⟩
  have hks : tabuStates g initial cfg (k + 1) = s₁ := by
    show tabuLoop g cfg (k + 1) (initState g initial) = s₁
    rw [tabuLoop_add g cfg k 1 (initState g initial)]
    exact tabuLoop_succ_of_step hguard hstep 0
  obtain ⟨m', nv', hsel', _, _, _, _, htabu, _, _, _⟩ := tabuStep_inv hstep
  have hmeq : m' = (v, b) := by
    have h2 := hsel'.symm.trans hsel
    exact (Prod.ext_iff.mp (Option.some.inj h2)).1
  have hentry : s₁.tabu (v, a) =
      some ((tabuStates g initial cfg k).iteration + 1 + cfg.tabu_tenure) := by
    have hpair : ((v, a) : Nat × Nat) =
        (m'.1, (tabuStates g initial cfg k).current m'.1) := by
      rw [hmeq, ha]
    simp only [htabu]
    rw [if_pos hpair]
  have hbound : TabuBound cfg (tabuStates g initial cfg (k + 1)) := by
    apply tabuLoop_invariant (TabuBound cfg)
      (fun _ _ hb hst => tabuStep_bound hb hst) (k + 1) (initState g initial)
    intro q t h
    exact absurd h (by simp [initState])
  have hentry' : (tabuStates g initial cfg (k + 1)).tabu (v, a) =
      some ((tabuStates g initial cfg k).iteration + 1 + cfg.tabu_tenure) := by
    rw [hks]
    exact hentry
  have hm : tabuStates g initial cfg m =
      tabuLoop g cfg (m - (k + 1)) (tabuStates g initial cfg (k + 1)) := by
    show tabuLoop g cfg m (initState g initial) = _
    have harith : (k + 1) + (m - (k + 1)) = m := by omega
    conv_lhs => rw [← harith]
    exact tabuLoop_add g cfg (k + 1) (m - (k + 1)) (initState g initial)
  obtain ⟨T', hT', hle⟩ := tabu_entry_persists (m - (k + 1))
    (tabuStates g initial cfg (k + 1)) (v, a) _ hbound hentry'
  have hT'' : (tabuStates g initial cfg m).tabu (v, a) = some T' := by
    rw [hm]
    exact hT'
  intro hselm
  obtain ⟨_, _, _, _, _, _, htclause⟩ := selectMove_sound hselm
  have hlt := htclause T' hT'' (by omega)
  omega

theorem tabu_tenure_respected_witness :
    (0 : Nat) < 1 ∧
    ((tabuStates pathG2 c12 cfgSmall 0).iteration < cfgSmall.max_iterations ∧
      (tabuStates pathG2 c12 cfgSmall 0).no_improve < cfgSmall.max_no_improve) ∧
    selectMove pathG2 (tabuStates pathG2 c12 cfgSmall 0).current
      (tabuStates pathG2 c12 cfgSmall 0).current_value
      (tabuStates pathG2 c12 cfgSmall 0).max_color
      ((tabuStates pathG2 c12 cfgSmall 0).iteration + 1)
      (tabuStates pathG2 c12 cfgSmall 0).best_value
      (tabuStates pathG2 c12 cfgSmall 0).tabu = some ((1, 3), 4) ∧
    (2 = (tabuStates pathG2 c12 cfgSmall 0).current 1) ∧
    ((tabuStates pathG2 c12 cfgSmall 1).iteration + 1 ≤
      (tabuStates pathG2 c12 cfgSmall 0).iteration + 1 + cfgSmall.tabu_tenure) ∧
    ((tabuStates pathG2 c12 cfgSmall 1).best_value ≤ 100) ∧
    selectMove pathG2 (tabuStates pathG2 c12 cfgSmall 1).current
      (tabuStates pathG2 c12 cfgSmall 1).current_value
      (tabuStates pathG2 c12 cfgSmall 1).max_color
      ((tabuStates pathG2 c12 cfgSmall 1).iteration + 1)
      (tabuStates pathG2 c12 cfgSmall 1).best_value
      (tabuStates pathG2 c12 cfgSmall 1).tabu ≠ some ((1, 2), 100) :=
  ⟨by decide, ⟨by decide, by decide⟩, by decide, by decide, by decide, by decide,
    tabu_tenure_respected pathG2 c12 cfgSmall 0 1 (by decide) 1 3 4 2 100
      ⟨by decide, by decide⟩ (by decide) (by decide) (by decide) (by decide)⟩

/-! ### Claim C4 — the greedy constructor follows the specified algorithm -/

theorem greedyGo_alookup_of_some {g : Graph} {u c : Nat} :
    ∀ (l : List Nat) (col : List (Nat × Nat)), alookup col u = some c →
      alookup (greedyGo g l col) u = some c
  | [], _, h => h
  | _ :: rest, _, h =>
      greedyGo_alookup_of_some rest _ (alookup_append_of_some _ h)

theorem greedyGo_split (g : Graph) :
    ∀ (l₁ l₂ : List Nat) (col : List (Nat × Nat)),
      greedyGo g (l₁ ++ l₂) col = greedyGo g l₂ (greedyGo g l₁ col)
  | [], _, _ => rfl
  | v :: rest, l₂, col => by
      show greedyGo g (rest ++ l₂) _ = _
      rw [greedyGo_split g rest l₂]
      rfl

theorem sortedVertices_nodup (g : Graph) : (sortedVertices g).Nodup :=
  ((sortedVertices_perm g).nodup_iff).mpr (List.nodup_range g.vcount)

theorem range_toFinset (n : Nat) : (List.range n).toFinset = Finset.range n := by
  ext x
  simp

/-- The color assigned to the `i`-th processed vertex is exactly the
smallest free color with respect to the coloring built from the first `i`
vertices. -/
theorem greedy_lookup_at (g : Graph) (i : Nat)
    (h : i < (sortedVertices g).length) :
    alookup (greedy_msc g).1 ((sortedVertices g).get ⟨i, h⟩) =
      some (smallestFree (forbiddenColors g
        (greedyGo g ((sortedVertices g).take i) [])
        ((sortedVertices g).get ⟨i, h⟩))) := by
  have hsplit : sortedVertices g =
      (sortedVertices g).take i ++
        (sortedVertices g).get ⟨i, h⟩ :: (sortedVertices g).drop (i + 1) := by
    conv_lhs => rw [← List.take_append_drop i (sortedVertices g)]
    rw [List.drop_eq_getElem_cons h, List.get_eq_getElem]
  have hnotin : (sortedVertices g).get ⟨i, h⟩ ∉ (sortedVertices g).take i := by
    have hnd : (sortedVertices g).Nodup := sortedVertices_nodup g
    rw [hsplit] at hnd
    obtain ⟨_, _, hdisj⟩ := List.nodup_append.mp hnd
    intro hmem
    exact hdisj hmem (List.mem_cons_self _ _)
  have hnone : alookup (greedyGo g ((sortedVertices g).take i) [])
      ((sortedVertices g).get ⟨i, h⟩) = none := by
    rw [alookup_eq_none_iff, greedyGo_keys]
    simpa [keysOf] using hnotin
  have h1 : greedyGo g (sortedVertices g) [] =
      greedyGo g ((sortedVertices g).get ⟨i, h⟩ :: (sortedVertices g).drop (i + 1))
        (greedyGo g ((sortedVertices g).take i) []) := by
    conv_lhs => rw [hsplit]
    rw [greedyGo_split]
  show alookup (greedyGo g (sortedVertices g) []) _ = _
  rw [h1]
  show alookup (greedyGo g ((sortedVertices g).drop (i + 1))
    (greedyGo g ((sortedVertices g).take i) [] ++
      [((sortedVertices g).get ⟨i, h⟩,
        smallestFree (forbiddenColors g
          (greedyGo g ((sortedVertices g).take i) [])
          ((sortedVertices g).get ⟨i, h⟩)))])) _ = _
  apply greedyGo_alookup_of_some
  rw [alookup_snoc hnone, if_pos rfl]

/-- C4: `greedy_msc` processes the vertices in the unique order sorted by
non-increasing degree with ties broken by ascending vertex id (a
permutation of `range n`); the `i`-th processed vertex receives a color
that is positive, unused by its already-colored neighbors, and minimal
among such colors (where the forbidden set is exactly the set of colors of
already-colored neighbors, the already-colored vertices being the first
`i` of the order); and the returned total is the sum of the assigned
colors. -/
theorem greedy_follows_spec (g : Graph) :
    ((sortedVertices g).Perm (List.range g.vcount) ∧
      List.Sorted (degKey g) (sortedVertices g)) ∧
    (∀ i (h : i < (sortedVertices g).length),
      ∃ c, alookup (greedy_msc g).1 ((sortedVertices g).get ⟨i, h⟩) = some c ∧
        1 ≤ c ∧
        c ∉ forbiddenColors g (greedyGo g ((sortedVertices g).take i) [])
          ((sortedVertices g).get ⟨i, h⟩) ∧
        (∀ c', 1 ≤ c' →
          c' ∉ forbiddenColors g (greedyGo g ((sortedVertices g).take i) [])
            ((sortedVertices g).get ⟨i, h⟩) → c ≤ c') ∧
        (∀ x, x ∈ forbiddenColors g (greedyGo g ((sortedVertices g).take i) [])
            ((sortedVertices g).get ⟨i, h⟩) ↔
          ∃ u ∈ g.neighbors ((sortedVertices g).get ⟨i, h⟩),
            alookup (greedyGo g ((sortedVertices g).take i) []) u = some x) ∧
        keysOf (greedyGo g ((sortedVertices g).take i) []) =
          (sortedVertices g).take i) ∧
    (greedy_msc g).2 = ∑ v ∈ Finset.range g.vcount, greedyColoring g v := by
  refine ⟨⟨sortedVertices_perm g, List.sorted_insertionSort _ _⟩, ?_, ?_⟩
  · intro i h
    obtain ⟨hpos, hnotmem, hmin⟩ := smallestFree_spec (forbiddenColors g
      (greedyGo g ((sortedVertices g).take i) [])
      ((sortedVertices g).get ⟨i, h⟩))
    refine ⟨_, greedy_lookup_at g i h, hpos, hnotmem, hmin,
      fun x => mem_forbiddenColors, ?_⟩
    rw [greedyGo_keys]
    simp [keysOf]
  · have hkeys : keysOf (greedy_msc g).1 = sortedVertices g := greedy_keys g
    have hnd : (keysOf (greedy_msc g).1).Nodup := by
      rw [hkeys]
      exact sortedVertices_nodup g
    show ((greedy_msc g).1.map Prod.snd).sum = _
    rw [values_sum_eq hnd, hkeys,
      List.toFinset_eq_of_perm _ _ (sortedVertices_perm g), range_toFinset]
    exact Finset.sum_congr rfl (fun v _ => rfl)

theorem greedy_follows_spec_witness :
    ((sortedVertices pathG2).Perm (List.range pathG2.vcount) ∧
      List.Sorted (degKey pathG2) (sortedVertices pathG2)) ∧
    ((0 : Nat) < (sortedVertices pathG2).length) ∧
    (∃ c, alookup (greedy_msc pathG2).1
        ((sortedVertices pathG2).get ⟨0, by decide⟩) = some c ∧
      1 ≤ c ∧
      c ∉ forbiddenColors pathG2 (greedyGo pathG2 ((sortedVertices pathG2).take 0) [])
        ((sortedVertices pathG2).get ⟨0, by decide⟩) ∧
      (∀ c', 1 ≤ c' →
        c' ∉ forbiddenColors pathG2
          (greedyGo pathG2 ((sortedVertices pathG2).take 0) [])
          ((sortedVertices pathG2).get ⟨0, by decide⟩) → c ≤ c') ∧
      (∀ x, x ∈ forbiddenColors pathG2
          (greedyGo pathG2 ((sortedVertices pathG2).take 0) [])
          ((sortedVertices pathG2).get ⟨0, by decide⟩) ↔
        ∃ u ∈ pathG2.neighbors ((sortedVertices pathG2).get ⟨0, by decide⟩),
          alookup (greedyGo pathG2 ((sortedVertices pathG2).take 0) []) u = some x) ∧
      keysOf (greedyGo pathG2 ((sortedVertices pathG2).take 0) []) =
        (sortedVertices pathG2).take 0) ∧
    (greedy_msc pathG2).2 = ∑ v ∈ Finset.range pathG2.vcount, greedyColoring pathG2 v :=
  ⟨(greedy_follows_spec pathG2).1, by decide,
    (greedy_follows_spec pathG2).2.1 0 (by decide),
    (greedy_follows_spec pathG2).2.2⟩

/-! ### Claim C9 — validation of the edge probability -/

/-- C9: for every `n` and `seed` (and any modelled PRNG), the generator
fails with the `InvalidParameter` error exactly when `p` is outside
`[0, 1]`; for `p` within `[0, 1]` it succeeds (returns a `Graph`), so it
never fails on account of an in-range `p`. -/
theorem p_validation (seedStream : Int → Nat → ℚ) (entropy : Nat → ℚ)
    (n : Int) (p : ℚ) (seed : Option Int) :
    ((0 ≤ p ∧ p ≤ 1) →
      generate_erdos_renyi_graph seedStream entropy n p seed =
        Except.ok ⟨n, genAdj n.toNat p (resolveStream seedStream entropy seed)⟩) ∧
    (¬(0 ≤ p ∧ p ≤ 1) →
      generate_erdos_renyi_graph seedStream entropy n p seed =
        Except.error "p must be in [0, 1]") := by
  constructor
  · intro hp
    unfold generate_erdos_renyi_graph
    rw [if_neg (not_not_intro hp)]
  · intro hp
    unfold generate_erdos_renyi_graph
    rw [if_pos hp]

theorem p_validation_witness :
    ((0 ≤ (1/2 : ℚ) ∧ (1/2 : ℚ) ≤ 1) ∧
      generate_erdos_renyi_graph (fun _ _ => 0) (fun _ => 0) 3 (1/2) (some 7) =
        Except.ok ⟨3, genAdj (3 : Int).toNat (1/2)
          (resolveStream (fun _ _ => 0) (fun _ => 0) (some 7))⟩) ∧
    (¬(0 ≤ (2 : ℚ) ∧ (2 : ℚ) ≤ 1) ∧
      generate_erdos_renyi_graph (fun _ _ => 0) (fun _ => 0) 3 2 (some 7) =
        Except.error "p must be in [0, 1]") :=
  ⟨⟨by norm_num, (p_validation (fun _ _ => 0) (fun _ => 0) 3 (1/2) (some 7)).1
      (by norm_num)⟩,
    ⟨by norm_num, (p_validation (fun _ _ => 0) (fun _ => 0) 3 2 (some 7)).2
      (by norm_num)⟩⟩

/-! ### Claim C6 — negative vertex counts are NOT rejected -/

/-- C6 counterexample: at `n = -1`, `p = 1/2`, the generator does not
fail: it returns a `Graph` (with the negative `n` stored as given and an
empty adjacency), contradicting the claim that a negative vertex count
fails fast with an `InvalidParameter` error.  Only `p` is validated. -/
theorem generate_negative_counterexample :
    generate_erdos_renyi_graph (fun _ _ => 0) (fun _ => 0) (-1) (1/2) none =
        Except.ok ⟨-1, fun _ => ∅⟩ ∧
      generate_erdos_renyi_graph (fun _ _ => 0) (fun _ => 0) (-1) (1/2) none ≠
        Except.error "p must be in [0, 1]" := by
  have h : generate_erdos_renyi_graph (fun _ _ => 0) (fun _ => 0) (-1) (1/2)
      none = Except.ok ⟨-1, fun _ => ∅⟩ := by
    unfold generate_erdos_renyi_graph
    rw [if_neg (by norm_num)]
    have hadj : genAdj ((-1 : Int)).toNat (1/2)
        (resolveStream (fun _ _ => 0) (fun _ => 0) none) = fun _ => ∅ :=
      funext fun _ => rfl
    rw [hadj]
  refine ⟨h, ?_⟩
  rw [h]
  simp

/-- C6 amended: graph generation does not validate the vertex count.  For
every negative `n` and every `p` in `[0, 1]`, `generate_erdos_renyi_graph`
returns (rather than failing) the `Graph` with the given negative `n` and
an empty adjacency — there are no vertices in `range n` and hence no
edges.  The `InvalidParameter` failure occurs only for `p` outside
`[0, 1]`. -/
theorem generate_negative_returns_graph (seedStream : Int → Nat → ℚ)
    (entropy : Nat → ℚ) (n : Int) (p : ℚ) (seed : Option Int)
    (hn : n < 0) (hp0 : 0 ≤ p) (hp1 : p ≤ 1) :
    generate_erdos_renyi_graph seedStream entropy n p seed =
      Except.ok ⟨n, fun _ => ∅⟩ := by
  unfold generate_erdos_renyi_graph
  rw [if_neg (not_not_intro ⟨hp0, hp1⟩)]
  have hn0 : n.toNat = 0 := Int.toNat_of_nonpos (le_of_lt hn)
  have hadj : genAdj n.toNat p (resolveStream seedStream entropy seed) =
      fun _ => ∅ := by
    rw [hn0]
    funext w
    rfl
  rw [hadj]

theorem generate_negative_witness :
    ((-2 : Int) < 0 ∧ (0 : ℚ) ≤ 1/3 ∧ (1/3 : ℚ) ≤ 1) ∧
      generate_erdos_renyi_graph (fun _ _ => 0) (fun _ => 0) (-2) (1/3)
          (some 5) = Except.ok ⟨-2, fun _ => ∅⟩ :=
  ⟨⟨by norm_num, by norm_num, by norm_num⟩,
    generate_negative_returns_graph (fun _ _ => 0) (fun _ => 0) (-2) (1/3)
      (some 5) (by norm_num) (by norm_num) (by norm_num)⟩

/-! ### Claim C7 — determinism and batch reproducibility -/

/-- A copy of `pathG2` built from a different syntactic term, used to
exercise the greedy-determinism congruence on equal graphs. -/
def pathG2e : Graph := ⟨pathG2.n, fun v => pathG2.adj v⟩

/-- C7: (a) with a seed supplied, the generated graph is a function of
`(n, p, seed)` alone — two calls that differ only in their ambient
entropy (the hidden state of an unseeded PRNG) return identical results;
(b) `greedy_msc` is a function of the graph alone (equal vertex counts and
adjacencies give equal colorings), and it is order-deterministic: the
processing order is the unique permutation of `range n` sorted by the
degree key, so any sorted permutation coincides with it;
(c) with a base seed, the batch generator is likewise independent of
entropy, and its `i`-th graph is generated with seed `base_seed + i`, so
two calls with identical arguments yield pairwise-identical graphs. -/
theorem generation_and_greedy_deterministic :
    (∀ (seedStream : Int → Nat → ℚ) (entropy₁ entropy₂ : Nat → ℚ)
        (n : Int) (p : ℚ) (s : Int),
      generate_erdos_renyi_graph seedStream entropy₁ n p (some s) =
        generate_erdos_renyi_graph seedStream entropy₂ n p (some s)) ∧
    (∀ g₁ g₂ : Graph, g₁.n = g₂.n → (∀ v, g₁.adj v = g₂.adj v) →
      greedy_msc g₁ = greedy_msc g₂) ∧
    (∀ (g : Graph) (l : List Nat), l.Perm (List.range g.vcount) →
      List.Sorted (degKey g) l → l = sortedVertices g) ∧
    (∀ (seedStream : Int → Nat → ℚ) (entropyFam₁ entropyFam₂ : Nat → Nat → ℚ)
        (count : Nat) (n : Int) (p : ℚ) (b : Int),
      generate_random_graphs seedStream entropyFam₁ count n p (some b) =
        generate_random_graphs seedStream entropyFam₂ count n p (some b)) ∧
    (∀ (seedStream : Int → Nat → ℚ) (entropyFam : Nat → Nat → ℚ)
        (count : Nat) (n : Int) (p : ℚ) (b : Int) (i : Nat), i < count →
      (generate_random_graphs seedStream entropyFam count n p (some b))[i]? =
        some (generate_erdos_renyi_graph seedStream (entropyFam i) n p
          (some (b + (i : Int))))) := by
  refine ⟨?_, ?_, ?_, ?_, ?_⟩
  · intro seedStream entropy₁ entropy₂ n p s
    rfl
  · intro g₁ g₂ hn hadj
    obtain ⟨n₁, a₁⟩ := g₁
    obtain ⟨n₂, a₂⟩ := g₂
    simp only at hn
    subst hn
    have ha : a₁ = a₂ := funext hadj
    subst ha
    rfl
  · intro g l hperm hsort
    exact List.eq_of_perm_of_sorted (hperm.trans (sortedVertices_perm g).symm)
      hsort (List.sorted_insertionSort _ _)
  · intro seedStream entropyFam₁ entropyFam₂ count n p b
    rfl
  · intro seedStream entropyFam count n p b i hi
    unfold generate_random_graphs
    rw [List.getElem?_map, List.getElem?_range hi]
    rfl

theorem generation_and_greedy_deterministic_witness :
    (generate_erdos_renyi_graph (fun s i => (s : ℚ) + i) (fun _ => 0) 2 (1/2)
        (some 3) =
      generate_erdos_renyi_graph (fun s i => (s : ℚ) + i) (fun _ => 1) 2 (1/2)
        (some 3)) ∧
    (pathG2.n = pathG2e.n ∧ greedy_msc pathG2 = greedy_msc pathG2e) ∧
    (([0, 1] : List Nat).Perm (List.range pathG2.vcount) ∧
      List.Sorted (degKey pathG2) [0, 1] ∧
      ([0, 1] : List Nat) = sortedVertices pathG2) ∧
    (generate_random_graphs (fun s i => (s : ℚ) + i) (fun _ _ => 0) 2 3 (1/2)
        (some 4) =
      generate_random_graphs (fun s i => (s : ℚ) + i) (fun _ _ => 1) 2 3 (1/2)
        (some 4)) ∧
    ((1 : Nat) < 2 ∧
      (generate_random_graphs (fun s i => (s : ℚ) + i) (fun _ _ => 0) 2 3 (1/2)
          (some 4))[1]? =
        some (generate_erdos_renyi_graph (fun s i => (s : ℚ) + i)
          ((fun _ _ => 0) 1) 3 (1/2) (some (4 + ((1 : Nat) : Int))))) :=
  ⟨generation_and_greedy_deterministic.1 (fun s i => (s : ℚ) + i) (fun _ => 0)
      (fun _ => 1) 2 (1/2) 3,
    ⟨rfl, generation_and_greedy_deterministic.2.1 pathG2 pathG2e rfl
      (fun _ => rfl)⟩,
    ⟨by decide, by decide,
      generation_and_greedy_deterministic.2.2.1 pathG2 [0, 1] (by decide)
        (by decide)⟩,
    generation_and_greedy_deterministic.2.2.2.1 (fun s i => (s : ℚ) + i)
      (fun _ _ => 0) (fun _ _ => 1) 2 3 (1/2) 4,
    ⟨by decide, generation_and_greedy_deterministic.2.2.2.2
      (fun s i => (s : ℚ) + i) (fun _ _ => 0) 2 3 (1/2) 4 1 (by decide)⟩⟩

end MSC
